import Mathlib

/-!
Verification development for the ppi-assembly repository.

Shallow embedding of the algorithmic fragments of the repository:
  - `search_net.py` : seed-based BFS network expansion with degree truncation
    (`expand_network_bfs`);
  - `scripts/network_assembly/check_parallel_reverse_edges.py` : edge
    canonicalization for undirected graphs;
  - `index_edgelist.py` : dense integer reindexing of external identifiers;
  - `scripts/merge_dicts.py` : right-biased JSON dictionary merge.

Protein identifiers are opaque tokens; the embedding is generic over a type α
with decidable equality (the source uses arbitrary hashable pandas values).
DataFrames become lists of row structures, Python sets become `Finset`s.
-/

namespace PPIAssembly

/-- A row of the PPI edge table (`ppi_df` in `search_net.py`): columns
`protein1`, `protein2`, `combined_score`. -/
structure PPIRow (α : Type) where
  protein1 : α
  protein2 : α
  combined_score : Int
deriving DecidableEq

/-- A row of the protein info table (`info_df` in `search_net.py`): the first
column holds the protein identifier, and there is a `preferred_name` column. -/
structure InfoRow (α : Type) where
  protein_id : α
  preferred_name : String
deriving DecidableEq

variable {α : Type} [DecidableEq α]

/-- `seed_ids = set(info_df[info_df['preferred_name'].isin(seed_genes)][protein_id_column].values)`
(search_net.py lines 23-24). -/
def seedIds (info : List (InfoRow α)) (seed_genes : List String) : Finset α :=
  ((info.filter (fun r => decide (r.preferred_name ∈ seed_genes))).map
    (fun r => r.protein_id)).toFinset

/-- `high_conf_ppi = ppi_df[ppi_df['combined_score'] > min_score]`
(search_net.py line 29): strict comparison. -/
def highConf (ppi : List (PPIRow α)) (min_score : Int) : List (PPIRow α) :=
  ppi.filter (fun r => decide (min_score < r.combined_score))

/-- Nodes of the graph `nx.from_pandas_edgelist(high_conf_ppi, ...)` in
insertion order: both endpoints of each row in turn, first occurrence kept. -/
def nodeList (ppi : List (PPIRow α)) : List α :=
  (ppi.flatMap (fun r => [r.protein1, r.protein2])).dedup

/-- Node set of the graph built from the edge list. -/
def nodesOf (ppi : List (PPIRow α)) : Finset α :=
  (nodeList ppi).toFinset

/-- Undirected adjacency of the NetworkX graph built from the edge list: `u`
and `v` are adjacent when some row joins them in either orientation. -/
def adjB (ppi : List (PPIRow α)) (u v : α) : Bool :=
  ppi.any (fun r =>
    decide ((r.protein1 = u ∧ r.protein2 = v) ∨ (r.protein1 = v ∧ r.protein2 = u)))

/-- `set(G.neighbors(protein))` (search_net.py line 50); for a node absent from
the graph this is empty, matching the `if protein in G` guard on line 49. -/
def neighborFinset (ppi : List (PPIRow α)) (v : α) : Finset α :=
  (nodesOf ppi).filter (fun u => adjB ppi v u = true)

/-- One hop of the loop on search_net.py lines 44-54: collect the neighbors of
every node of the expanded set and merge them in. -/
def bfsStep (ppi : List (PPIRow α)) (s : Finset α) : Finset α :=
  s ∪ s.biUnion (fun v => neighborFinset ppi v)

/-- The hop loop of search_net.py lines 44-58: `for hop in range(max_hops)`,
updating `expanded_ids` and breaking early once `len(expanded_ids) > max_nodes`. -/
def bfsLoop (ppi : List (PPIRow α)) (max_nodes : Nat) : Nat → Finset α → Finset α
  | 0, s => s
  | h + 1, s =>
    let s' := bfsStep ppi s
    if max_nodes < s'.card then s' else bfsLoop ppi max_nodes h s'

/-- Degree of `v` inside `G.subgraph(expanded_ids)` (search_net.py lines 65-66);
NetworkX counts a self-loop twice. -/
def subgraphDegree (ppi : List (PPIRow α)) (s : Finset α) (v : α) : Nat :=
  (s.filter (fun u => u ≠ v ∧ adjB ppi v u = true)).card +
    (if adjB ppi v v then 2 else 0)

/-- `top_nodes = sorted(degrees.items(), key=lambda x: x[1], reverse=True)`
(search_net.py line 69): the nodes of the induced subgraph ranked by descending
degree.  Python's sort is stable, so ties keep the dict's insertion order: the
graph's node order restricted to the expanded set. -/
def rankedNodes (ppi : List (PPIRow α)) (s : Finset α) : List α :=
  List.insertionSort
    (fun a b => subgraphDegree ppi s b ≤ subgraphDegree ppi s a)
    ((nodeList ppi).filter (fun v => decide (v ∈ s)))

/-- The truncation loop of search_net.py lines 72-75: walk the ranked nodes,
stopping as soon as the budget is reached, inserting otherwise. -/
def addUpTo (max_nodes : Nat) : List α → Finset α → Finset α
  | [], s => s
  | v :: rest, s =>
    if max_nodes ≤ s.card then s else addUpTo max_nodes rest (insert v s)

/-- The node-set component of `expand_network_bfs` (search_net.py lines 20-77):
seed lookup, confidence filtering, the BFS hop loop, then degree-based
truncation (restarted from the seed set) when the budget is exceeded. -/
def expandIds (seed_genes : List String) (ppi : List (PPIRow α))
    (info : List (InfoRow α)) (min_score : Int) (max_hops max_nodes : Nat) :
    Finset α :=
  let seeds := seedIds info seed_genes
  let hc := highConf ppi min_score
  let pre := bfsLoop hc max_nodes max_hops seeds
  if max_nodes < pre.card then addUpTo max_nodes (rankedNodes hc pre) seeds
  else pre

/-- The edge-list component of `expand_network_bfs` (search_net.py lines 80-83):
the rows of the filtered input with both endpoints in the final expanded set. -/
def expandEdges (seed_genes : List String) (ppi : List (PPIRow α))
    (info : List (InfoRow α)) (min_score : Int) (max_hops max_nodes : Nat) :
    List (PPIRow α) :=
  let ids := expandIds seed_genes ppi info min_score max_hops max_nodes
  (highConf ppi min_score).filter
    (fun r => decide (r.protein1 ∈ ids ∧ r.protein2 ∈ ids))

/-- Coverage test for a seed name: some info row carries it as
`preferred_name` (the names `isin` can match on search_net.py line 23). -/
def coveredB (info : List (InfoRow α)) (n : String) : Bool :=
  info.any (fun r => decide (r.preferred_name = n))

/-- The spec's concrete BFS scenario: edge list `[(0,1),(1,2),(2,3)]`, with a
confidence score above any threshold used in the examples. -/
def scenarioEdges : List (PPIRow Nat) :=
  [⟨0, 1, 900⟩, ⟨1, 2, 900⟩, ⟨2, 3, 900⟩]

/-- An info table naming the four scenario nodes. -/
def scenarioInfo : List (InfoRow Nat) :=
  [⟨0, "g0"⟩, ⟨1, "g1"⟩, ⟨2, "g2"⟩, ⟨3, "g3"⟩]

/-! ### Edge canonicalizer (`check_parallel_reverse_edges.py`) -/

/-- `normalized = (min(source, target), max(source, target))` (line 19). -/
def normalized (e : Nat × Nat) : Nat × Nat :=
  (min e.1 e.2, max e.1 e.2)

/-- The set `normalized_edges` built on lines 16-20: one entry per canonical
unordered pair. -/
def normalizedEdges (edges : List (Nat × Nat)) : Finset (Nat × Nat) :=
  (edges.map normalized).toFinset

/-- `len(edges) - len(normalized_edges)`, the removed-edge count printed on
line 23. -/
def removedCount (edges : List (Nat × Nat)) : Nat :=
  edges.length - (normalizedEdges edges).card

/-- Lexicographic order on integer pairs, as Python's `sorted` compares
tuples. -/
def lexRel (a b : Nat × Nat) : Prop :=
  a.1 < b.1 ∨ (a.1 = b.1 ∧ a.2 ≤ b.2)

instance : DecidableRel lexRel := fun a b => by
  unfold lexRel
  infer_instance

instance : IsTotal (Nat × Nat) lexRel where
  total a b := by
    rcases Nat.lt_trichotomy a.1 b.1 with h | h | h
    · exact Or.inl (Or.inl h)
    · rcases Nat.le_total a.2 b.2 with h2 | h2
      · exact Or.inl (Or.inr ⟨h, h2⟩)
      · exact Or.inr (Or.inr ⟨h.symm, h2⟩)
    · exact Or.inr (Or.inl h)

instance : IsTrans (Nat × Nat) lexRel where
  trans a b c hab hbc := by
    rcases hab with h1 | ⟨e1, l1⟩
    · rcases hbc with h2 | ⟨e2, _⟩
      · exact Or.inl (h1.trans h2)
      · exact Or.inl (e2 ▸ h1)
    · rcases hbc with h2 | ⟨e2, l2⟩
      · exact Or.inl (e1 ▸ h2)
      · exact Or.inr ⟨e1.trans e2, l1.trans l2⟩

/-- The rows written to the cleaned CSV on lines 30-31:
`for source, target in sorted(normalized_edges)` — the distinct canonical
pairs in lexicographic order. -/
def cleanedRows (edges : List (Nat × Nat)) : List (Nat × Nat) :=
  List.insertionSort lexRel (edges.map normalized).dedup

/-! ### Identifier reindexer (`index_edgelist.py`) -/

/-- A row of `brca_ppi_edgelist.csv` as read by `index_edgelist.py`: columns
`protein1`, `protein2` holding external identifiers. -/
structure EdgeRow where
  protein1 : String
  protein2 : String
deriving DecidableEq

/-- Helper for `revIndex`: the reversed dictionary comprehension
`{v: k for k, v in protein_list.items()}` gives later (higher-index)
occurrences precedence, starting from offset `k`. -/
def revIndexFrom (k : Nat) : List String → String → Option Nat
  | [], _ => none
  | v :: rest, x =>
    match revIndexFrom (k + 1) rest x with
    | some j => some j
    | none => if x = v then some k else none

/-- `{v: k for k, v in protein_list.items()}` (index_edgelist.py lines 7-10),
where `protein_list = dict(enumerate(brca_info['protein_id'].tolist()))`:
maps an identifier to its 0-based position in the node table (last occurrence
wins on duplicates), `none` when absent. -/
def revIndex (ids : List String) (x : String) : Option Nat :=
  revIndexFrom 0 ids x

/-- `brca_edges['source'] = brca_edges['protein1'].map(...)` and likewise for
`target` (lines 9-10): every row is kept, unmapped identifiers become missing
values (pandas NaN, modeled as `none`). -/
def reindexEdges (ids : List String) (edges : List EdgeRow) :
    List (Option Nat × Option Nat) :=
  edges.map (fun e => (revIndex ids e.protein1, revIndex ids e.protein2))

/-! ### Dictionary merge (`scripts/merge_dicts.py`) -/

/-- Key lookup in a JSON object represented as an ordered key/value list. -/
def dictLookup (d : List (String × String)) (k : String) : Option String :=
  (d.find? (fun p => decide (p.1 = k))).map (fun p => p.2)

/-- `merged_dict = {**dict1, **dict2}` (merge_dicts.py line 12): keys of
`dict1` keep their order but take `dict2`'s value when the key is shared, then
the keys only in `dict2` follow in `dict2`'s order. -/
def mergeDicts (d1 d2 : List (String × String)) : List (String × String) :=
  d1.map (fun p => (p.1, (dictLookup d2 p.1).getD p.2)) ++
    d2.filter (fun p => (dictLookup d1 p.1).isNone)

/-! ### Lemmas about the BFS expansion -/

theorem subset_bfsStep (ppi : List (PPIRow α)) (s : Finset α) : s ⊆ bfsStep ppi s :=
  Finset.subset_union_left

theorem subset_bfsLoop (ppi : List (PPIRow α)) (N : Nat) :
    ∀ (H : Nat) (s : Finset α), s ⊆ bfsLoop ppi N H s := by
  intro H
  induction H with
  | zero => intro s; exact Finset.Subset.refl s
  | succ h ih =>
    intro s
    show s ⊆ if N < (bfsStep ppi s).card then bfsStep ppi s
        else bfsLoop ppi N h (bfsStep ppi s)
    by_cases hc : N < (bfsStep ppi s).card
    · rw [if_pos hc]; exact subset_bfsStep ppi s
    · rw [if_neg hc]; exact (subset_bfsStep ppi s).trans (ih (bfsStep ppi s))

theorem bfsLoop_mono_hops (ppi : List (PPIRow α)) (N : Nat) :
    ∀ (H : Nat) (s : Finset α), bfsLoop ppi N H s ⊆ bfsLoop ppi N (H + 1) s := by
  intro H
  induction H with
  | zero =>
    intro s
    show s ⊆ if N < (bfsStep ppi s).card then bfsStep ppi s
        else bfsLoop ppi N 0 (bfsStep ppi s)
    by_cases hc : N < (bfsStep ppi s).card
    · rw [if_pos hc]; exact subset_bfsStep ppi s
    · rw [if_neg hc]; exact subset_bfsStep ppi s
  | succ h ih =>
    intro s
    show (if N < (bfsStep ppi s).card then bfsStep ppi s
          else bfsLoop ppi N h (bfsStep ppi s)) ⊆
        (if N < (bfsStep ppi s).card then bfsStep ppi s
          else bfsLoop ppi N (h + 1) (bfsStep ppi s))
    by_cases hc : N < (bfsStep ppi s).card
    · rw [if_pos hc, if_pos hc]
    · rw [if_neg hc, if_neg hc]; exact ih (bfsStep ppi s)

theorem subset_addUpTo (N : Nat) :
    ∀ (l : List α) (s : Finset α), s ⊆ addUpTo N l s := by
  intro l
  induction l with
  | nil => intro s; exact Finset.Subset.refl s
  | cons v rest ih =>
    intro s
    show s ⊆ if N ≤ s.card then s else addUpTo N rest (insert v s)
    by_cases hc : N ≤ s.card
    · rw [if_pos hc]
    · rw [if_neg hc]; exact (Finset.subset_insert v s).trans (ih (insert v s))

theorem addUpTo_of_card_ge (N : Nat) :
    ∀ (l : List α) (s : Finset α), N ≤ s.card → addUpTo N l s = s := by
  intro l
  induction l with
  | nil => intro s _; rfl
  | cons v rest _ =>
    intro s h
    show (if N ≤ s.card then s else addUpTo N rest (insert v s)) = s
    rw [if_pos h]

theorem card_addUpTo (N : Nat) :
    ∀ (l : List α) (s : Finset α), s.card ≤ N → (addUpTo N l s).card ≤ N := by
  intro l
  induction l with
  | nil => intro s h; exact h
  | cons v rest ih =>
    intro s h
    show (if N ≤ s.card then s else addUpTo N rest (insert v s)).card ≤ N
    by_cases hc : N ≤ s.card
    · rw [if_pos hc]; exact h
    · rw [if_neg hc]
      exact ih (insert v s)
        ((Finset.card_insert_le v s).trans (Nat.succ_le_of_lt (Nat.lt_of_not_le hc)))

/-- If two seed-gene lists produce the same seed ID set, the whole expansion
agrees on them. -/
theorem expandIds_seed_congr {sg1 sg2 : List String} {ppi : List (PPIRow α)}
    {info : List (InfoRow α)} {ms : Int} {H N : Nat}
    (h : seedIds info sg1 = seedIds info sg2) :
    expandIds sg1 ppi info ms H N = expandIds sg2 ppi info ms H N := by
  simp only [expandIds, h]

theorem expandEdges_seed_congr {sg1 sg2 : List String} {ppi : List (PPIRow α)}
    {info : List (InfoRow α)} {ms : Int} {H N : Nat}
    (h : seedIds info sg1 = seedIds info sg2) :
    expandEdges sg1 ppi info ms H N = expandEdges sg2 ppi info ms H N := by
  simp only [expandEdges, expandIds_seed_congr h]

/-! ### Claim theorems for the BFS expansion -/

/-- Claim C1: BFS expansion with hop limit 0 returns exactly the seed ID set;
the pre-truncation expanded set is monotone in the hop limit; and on the edge
list `[(0,1),(1,2),(2,3)]` with seeds `{0}`, one hop yields `{0,1}` and two
hops yield `{0,1,2}`. -/
theorem bfs_hop_zero_and_monotone {β : Type} [DecidableEq β] :
    (∀ (sg : List String) (ppi : List (PPIRow β)) (info : List (InfoRow β))
        (ms : Int) (N : Nat),
      expandIds sg ppi info ms 0 N = seedIds info sg)
    ∧ (∀ (hc : List (PPIRow β)) (N H : Nat) (s : Finset β),
      bfsLoop hc N H s ⊆ bfsLoop hc N (H + 1) s)
    ∧ bfsLoop scenarioEdges 500 1 {0} = {0, 1}
    ∧ bfsLoop scenarioEdges 500 2 {0} = {0, 1, 2} := by
  refine ⟨?_, ?_, by decide, by decide⟩
  · intro sg ppi info ms N
    show (if N < (seedIds info sg).card then
        addUpTo N (rankedNodes (highConf ppi ms) (seedIds info sg)) (seedIds info sg)
      else seedIds info sg) = seedIds info sg
    by_cases hc : N < (seedIds info sg).card
    · rw [if_pos hc]
      exact addUpTo_of_card_ge N _ _ (Nat.le_of_lt hc)
    · rw [if_neg hc]
  · intro hc N H s
    exact bfsLoop_mono_hops hc N H s

/-- Claim C2: every seed ID is in the final expanded set; whenever the node
budget is at least the seed-set size, the final expanded set fits the
budget. -/
theorem seeds_retained_and_budget {β : Type} [DecidableEq β]
    (sg : List String) (ppi : List (PPIRow β)) (info : List (InfoRow β))
    (ms : Int) (H N : Nat) :
    seedIds info sg ⊆ expandIds sg ppi info ms H N
    ∧ ((seedIds info sg).card ≤ N → (expandIds sg ppi info ms H N).card ≤ N) := by
  constructor
  · show seedIds info sg ⊆
      (if N < (bfsLoop (highConf ppi ms) N H (seedIds info sg)).card then
        addUpTo N (rankedNodes (highConf ppi ms)
          (bfsLoop (highConf ppi ms) N H (seedIds info sg))) (seedIds info sg)
      else bfsLoop (highConf ppi ms) N H (seedIds info sg))
    by_cases hc : N < (bfsLoop (highConf ppi ms) N H (seedIds info sg)).card
    · rw [if_pos hc]; exact subset_addUpTo N _ _
    · rw [if_neg hc]; exact subset_bfsLoop (highConf ppi ms) N H _
  · intro hN
    show (if N < (bfsLoop (highConf ppi ms) N H (seedIds info sg)).card then
        addUpTo N (rankedNodes (highConf ppi ms)
          (bfsLoop (highConf ppi ms) N H (seedIds info sg))) (seedIds info sg)
      else bfsLoop (highConf ppi ms) N H (seedIds info sg)).card ≤ N
    by_cases hc : N < (bfsLoop (highConf ppi ms) N H (seedIds info sg)).card
    · rw [if_pos hc]; exact card_addUpTo N _ _ hN
    · rw [if_neg hc]; exact Nat.le_of_not_lt hc

/-- Witness for C2 at the concrete scenario. -/
theorem seeds_retained_and_budget_witness :
    seedIds scenarioInfo ["g0"] ⊆ expandIds ["g0"] scenarioEdges scenarioInfo 700 1 500
    ∧ (expandIds ["g0"] scenarioEdges scenarioInfo 700 1 500).card ≤ 500 := by
  have h := @seeds_retained_and_budget Nat _ ["g0"] scenarioEdges scenarioInfo 700 1 500
  exact ⟨h.1, h.2 (by decide)⟩

/-- Claim C3: the returned edge list is exactly the rows of the score-filtered
input with both endpoints in the final expanded set, so every returned edge is
an edge of the filtered input. -/
theorem expansion_edges_induced {β : Type} [DecidableEq β]
    (sg : List String) (ppi : List (PPIRow β)) (info : List (InfoRow β))
    (ms : Int) (H N : Nat) (r : PPIRow β) :
    (r ∈ expandEdges sg ppi info ms H N ↔
      r ∈ highConf ppi ms
      ∧ r.protein1 ∈ expandIds sg ppi info ms H N
      ∧ r.protein2 ∈ expandIds sg ppi info ms H N)
    ∧ (r ∈ expandEdges sg ppi info ms H N → r ∈ ppi ∧ ms < r.combined_score) := by
  have key : r ∈ expandEdges sg ppi info ms H N ↔
      r ∈ highConf ppi ms
      ∧ r.protein1 ∈ expandIds sg ppi info ms H N
      ∧ r.protein2 ∈ expandIds sg ppi info ms H N := by
    simp [expandEdges, List.mem_filter]
  refine ⟨key, fun hr => ?_⟩
  have h1 := (key.mp hr).1
  simpa [highConf, List.mem_filter] using h1

/-- Witness for C3 at the concrete scenario. -/
theorem expansion_edges_induced_witness :
    (⟨0, 1, 900⟩ : PPIRow Nat) ∈ expandEdges ["g0"] scenarioEdges scenarioInfo 700 1 500
    ∧ (⟨0, 1, 900⟩ : PPIRow Nat) ∈ scenarioEdges ∧ (700 : Int) < 900 := by
  have h := (@expansion_edges_induced Nat _ ["g0"] scenarioEdges scenarioInfo 700 1 500
    ⟨0, 1, 900⟩).2 (by decide)
  exact ⟨by decide, h.1, h.2⟩

/-- Claim C9: a seed name with no matching `preferred_name` row contributes
nothing — the seed ID set, the expanded set and the returned edges computed
from the full name list equal the ones computed from the covered names only,
and no error is raised (the embedding is total). -/
theorem uncovered_seed_names_silently_excluded {β : Type} [DecidableEq β]
    (info : List (InfoRow β)) (sg : List String) (ppi : List (PPIRow β))
    (ms : Int) (H N : Nat) :
    seedIds info sg = seedIds info (sg.filter (coveredB info))
    ∧ expandIds sg ppi info ms H N
        = expandIds (sg.filter (coveredB info)) ppi info ms H N
    ∧ expandEdges sg ppi info ms H N
        = expandEdges (sg.filter (coveredB info)) ppi info ms H N := by
  have hseed : seedIds info sg = seedIds info (sg.filter (coveredB info)) := by
    unfold seedIds
    have hfil : info.filter (fun r => decide (r.preferred_name ∈ sg))
        = info.filter (fun r => decide (r.preferred_name ∈ sg.filter (coveredB info))) := by
      apply List.filter_congr
      intro r hr
      have hiff : r.preferred_name ∈ sg ↔
          r.preferred_name ∈ sg.filter (coveredB info) := by
        constructor
        · intro hmem
          refine List.mem_filter.mpr ⟨hmem, ?_⟩
          exact List.any_eq_true.mpr ⟨r, hr, by simp⟩
        · intro hmem
          exact (List.mem_filter.mp hmem).1
      exact decide_eq_decide.mpr hiff
    rw [hfil]
  exact ⟨hseed, expandIds_seed_congr hseed, expandEdges_seed_congr hseed⟩

/-- Claim C10: the confidence filter keeps a row exactly when its score
strictly exceeds the threshold; rows at exactly the threshold are excluded
from the filtered list and the returned edges, and every graph adjacency comes
from a strictly-above-threshold row of the input. -/
theorem strict_confidence_threshold {β : Type} [DecidableEq β]
    (ppi : List (PPIRow β)) (ms : Int) (r : PPIRow β) :
    (r ∈ highConf ppi ms ↔ r ∈ ppi ∧ ms < r.combined_score)
    ∧ (r.combined_score = ms →
        r ∉ highConf ppi ms
        ∧ ∀ (sg : List String) (info : List (InfoRow β)) (H N : Nat),
            r ∉ expandEdges sg ppi info ms H N)
    ∧ (∀ u v : β, adjB (highConf ppi ms) u v = true →
        ∃ e, e ∈ ppi ∧ ms < e.combined_score ∧
          ((e.protein1 = u ∧ e.protein2 = v) ∨ (e.protein1 = v ∧ e.protein2 = u))) := by
  have key : r ∈ highConf ppi ms ↔ r ∈ ppi ∧ ms < r.combined_score := by
    simp [highConf, List.mem_filter]
  refine ⟨key, fun hs => ⟨?_, ?_⟩, ?_⟩
  · intro hmem
    exact absurd ((key.mp hmem).2) (by rw [hs]; exact lt_irrefl ms)
  · intro sg info H N hmem
    have h1 : r ∈ highConf ppi ms := by
      have := List.mem_filter.mp hmem
      exact this.1
    exact absurd ((key.mp h1).2) (by rw [hs]; exact lt_irrefl ms)
  · intro u v hadj
    rcases List.any_eq_true.mp hadj with ⟨e, he, hcond⟩
    have he2 := List.mem_filter.mp he
    refine ⟨e, he2.1, by simpa using he2.2, by simpa using hcond⟩

/-- Witness for C10: a row at exactly the threshold is dropped, and a
concrete adjacency of the filtered scenario graph is explained by an input
row. -/
theorem strict_confidence_threshold_witness :
    ((⟨0, 1, 700⟩ : PPIRow Nat) ∉ highConf [⟨0, 1, 700⟩] 700)
    ∧ ((⟨0, 1, 700⟩ : PPIRow Nat) ∉ expandEdges ["g0"] [⟨0, 1, 700⟩] scenarioInfo 700 1 500)
    ∧ ∃ e, e ∈ scenarioEdges ∧ (700 : Int) < e.combined_score ∧
        ((e.protein1 = 0 ∧ e.protein2 = 1) ∨ (e.protein1 = 1 ∧ e.protein2 = 0)) := by
  have h := (@strict_confidence_threshold Nat _ [⟨0, 1, 700⟩] 700 ⟨0, 1, 700⟩).2.1 rfl
  have h3 := (@strict_confidence_threshold Nat _ scenarioEdges 700 ⟨0, 1, 900⟩).2.2
    0 1 (by decide)
  exact ⟨h.1, h.2 ["g0"] scenarioInfo 1 500, h3⟩

/-! ### Lemmas about the edge canonicalizer -/

theorem normalized_fst_le_snd (e : Nat × Nat) : (normalized e).1 ≤ (normalized e).2 :=
  min_le_max

theorem normalized_eq_self {e : Nat × Nat} (h : e.1 ≤ e.2) : normalized e = e := by
  cases e with
  | mk a b => simp only [normalized] at *; rw [min_eq_left h, max_eq_right h]

theorem cleanedRows_perm (edges : List (Nat × Nat)) :
    List.Perm (cleanedRows edges) ((edges.map normalized).dedup) :=
  List.perm_insertionSort lexRel _

theorem mem_cleanedRows {edges : List (Nat × Nat)} {e : Nat × Nat} :
    e ∈ cleanedRows edges ↔ e ∈ edges.map normalized := by
  rw [(cleanedRows_perm edges).mem_iff]
  exact List.mem_dedup

theorem cleanedRows_nodup (edges : List (Nat × Nat)) : (cleanedRows edges).Nodup :=
  (cleanedRows_perm edges).nodup_iff.mpr (List.nodup_dedup _)

theorem cleanedRows_toFinset (edges : List (Nat × Nat)) :
    (cleanedRows edges).toFinset = normalizedEdges edges := by
  rw [List.toFinset_eq_of_perm _ _ (cleanedRows_perm edges)]
  apply List.toFinset.ext
  intro x
  exact List.mem_dedup

theorem cleanedRows_length (edges : List (Nat × Nat)) :
    (cleanedRows edges).length = (normalizedEdges edges).card := by
  rw [← cleanedRows_toFinset]
  exact (List.toFinset_card_of_nodup (cleanedRows_nodup edges)).symm

theorem cleanedRows_fst_le_snd (edges : List (Nat × Nat)) :
    ∀ e ∈ cleanedRows edges, e.1 ≤ e.2 := by
  intro e he
  rcases List.mem_map.mp (mem_cleanedRows.mp he) with ⟨x, _, hx⟩
  rw [← hx]
  exact normalized_fst_le_snd x

theorem map_normalized_cleanedRows (edges : List (Nat × Nat)) :
    (cleanedRows edges).map normalized = cleanedRows edges := by
  have h : ∀ e ∈ cleanedRows edges, normalized e = id e := fun e he =>
    normalized_eq_self (cleanedRows_fst_le_snd edges e he)
  rw [List.map_congr_left h, List.map_id]

theorem sorted_cleanedRows (edges : List (Nat × Nat)) :
    List.Sorted lexRel (cleanedRows edges) :=
  List.sorted_insertionSort lexRel _

/-! ### Claim theorems for the edge canonicalizer -/

/-- Claim C4: canonicalization is idempotent — rerunning it on its own output
reproduces the output rows, the canonical edge set, and removes zero further
edges; every output edge has `source ≤ target`; and the output rows are sorted
lexicographically. -/
theorem canonicalization_idempotent_ordered (edges : List (Nat × Nat)) :
    cleanedRows (cleanedRows edges) = cleanedRows edges
    ∧ normalizedEdges (cleanedRows edges) = normalizedEdges edges
    ∧ removedCount (cleanedRows edges) = 0
    ∧ (∀ e ∈ cleanedRows edges, e.1 ≤ e.2)
    ∧ List.Sorted lexRel (cleanedRows edges) := by
  have hset : normalizedEdges (cleanedRows edges) = normalizedEdges edges := by
    unfold normalizedEdges
    rw [map_normalized_cleanedRows, cleanedRows_toFinset]
    rfl
  refine ⟨?_, hset, ?_, cleanedRows_fst_le_snd edges, sorted_cleanedRows edges⟩
  · have h1 : cleanedRows (cleanedRows edges)
        = List.insertionSort lexRel ((cleanedRows edges).map normalized).dedup := rfl
    rw [h1, map_normalized_cleanedRows,
      List.dedup_eq_self.mpr (cleanedRows_nodup edges)]
    exact (sorted_cleanedRows edges).insertionSort_eq
  · unfold removedCount
    rw [hset, cleanedRows_length]
    exact Nat.sub_self _

/-- Witness for C4 on a concrete reversed edge. -/
theorem canonicalization_idempotent_ordered_witness :
    (1, 2) ∈ cleanedRows [(2, 1)]
    ∧ (1 : Nat) ≤ 2
    ∧ cleanedRows (cleanedRows [(2, 1)]) = cleanedRows [(2, 1)] := by
  have h := canonicalization_idempotent_ordered [(2, 1)]
  exact ⟨by decide, h.2.2.2.1 (1, 2) (by decide), h.1⟩

/-- Claim C5: the reported removed-edge count is exactly the number of input
rows minus the number of distinct canonical pairs; on
`[(1,2),(2,1),(3,4)]` the output set is `{(1,2),(3,4)}` with one row
removed. -/
theorem removed_count_exact (edges : List (Nat × Nat)) :
    (normalizedEdges edges).card ≤ edges.length
    ∧ removedCount edges + (normalizedEdges edges).card = edges.length
    ∧ normalizedEdges [(1, 2), (2, 1), (3, 4)] = {(1, 2), (3, 4)}
    ∧ removedCount [(1, 2), (2, 1), (3, 4)] = 1 := by
  have hle : (normalizedEdges edges).card ≤ edges.length := by
    unfold normalizedEdges
    calc (edges.map normalized).toFinset.card ≤ (edges.map normalized).length :=
          List.toFinset_card_le _
      _ = edges.length := List.length_map _ _
  refine ⟨hle, ?_, by decide, by decide⟩
  unfold removedCount
  exact Nat.sub_add_cancel hle

/-! ### Lemmas about the identifier reindexer -/

theorem revIndexFrom_eq_none {x : String} :
    ∀ (k : Nat) (ids : List String), x ∉ ids → revIndexFrom k ids x = none := by
  intro k ids
  induction ids generalizing k with
  | nil => intro _; rfl
  | cons v rest ih =>
    intro h
    have h1 : x ≠ v := fun hx => h (hx ▸ List.mem_cons_self v rest)
    have h2 : x ∉ rest := fun hx => h (List.mem_cons_of_mem v hx)
    simp [revIndexFrom, ih (k + 1) h2, h1]

theorem revIndexFrom_get :
    ∀ (k : Nat) (ids : List String), ids.Nodup →
      ∀ (i : Nat) (hi : i < ids.length),
        revIndexFrom k ids (ids.get ⟨i, hi⟩) = some (k + i) := by
  intro k ids
  induction ids generalizing k with
  | nil => intro _ i hi; exact absurd hi (Nat.not_lt_zero i)
  | cons v rest ih =>
    intro h i hi
    cases i with
    | zero =>
      have hnotin : v ∉ rest := (List.nodup_cons.mp h).1
      simp [revIndexFrom, revIndexFrom_eq_none (k + 1) rest hnotin]
    | succ j =>
      have hj : j < rest.length := Nat.lt_of_succ_lt_succ hi
      have hrec := ih (k + 1) (List.nodup_cons.mp h).2 j hj
      have hget : (v :: rest).get ⟨j + 1, hi⟩ = rest.get ⟨j, hj⟩ := rfl
      rw [hget]
      show (match revIndexFrom (k + 1) rest (rest.get ⟨j, hj⟩) with
        | some m => some m
        | none => if rest.get ⟨j, hj⟩ = v then some k else none) = some (k + (j + 1))
      rw [hrec]
      show some (k + 1 + j) = some (k + (j + 1))
      rw [Nat.add_assoc, Nat.add_comm 1 j]

theorem revIndex_get {ids : List String} (h : ids.Nodup) (i : Nat)
    (hi : i < ids.length) : revIndex ids (ids.get ⟨i, hi⟩) = some i := by
  have hk := revIndexFrom_get 0 ids h i hi
  rw [Nat.zero_add] at hk
  exact hk

theorem revIndex_eq_none {ids : List String} {x : String} (h : x ∉ ids) :
    revIndex ids x = none :=
  revIndexFrom_eq_none 0 ids h

theorem revIndexFrom_isSome {x : String} :
    ∀ (k : Nat) (ids : List String), x ∈ ids →
      (revIndexFrom k ids x).isSome = true := by
  intro k ids
  induction ids generalizing k with
  | nil => intro h; cases h
  | cons v rest ih =>
    intro h
    show (match revIndexFrom (k + 1) rest x with
      | some j => some j
      | none => if x = v then some k else none).isSome = true
    cases hrec : revIndexFrom (k + 1) rest x with
    | some j => rfl
    | none =>
      have hx : x = v := by
        rcases List.mem_cons.mp h with h1 | h2
        · exact h1
        · exact absurd (ih (k + 1) h2) (by rw [hrec]; simp)
      simp [hx]

/-! ### Claim theorems for the identifier reindexer -/

/-- Claim C6: with pairwise-distinct identifiers, every identifier is mapped
to its 0-based row position (a bijection onto the dense range), and the edge
table is rewritten row-for-row through that mapping. -/
theorem reindexing_dense_bijection (ids : List String) (edges : List EdgeRow)
    (hn : ids.Nodup) :
    (∀ (i : Nat) (hi : i < ids.length), revIndex ids (ids.get ⟨i, hi⟩) = some i)
    ∧ (∀ x ∈ ids, ∃ (i : Nat) (hi : i < ids.length),
        revIndex ids x = some i ∧ ids.get ⟨i, hi⟩ = x)
    ∧ (reindexEdges ids edges).length = edges.length
    ∧ (∀ k : Nat, (reindexEdges ids edges)[k]? =
        (edges[k]?).map (fun e => (revIndex ids e.protein1, revIndex ids e.protein2))) := by
  refine ⟨revIndex_get hn, ?_, List.length_map _ _, ?_⟩
  · intro x hx
    rcases List.mem_iff_get.mp hx with ⟨⟨i, hi⟩, hget⟩
    exact ⟨i, hi, by rw [← hget]; exact revIndex_get hn i hi, hget⟩
  · intro k
    exact List.getElem?_map _ _ _

/-- Witness for C6: a concrete distinct identifier list. -/
theorem reindexing_dense_bijection_witness :
    List.Nodup ["P1", "P2", "P3"]
    ∧ revIndex ["P1", "P2", "P3"] "P2" = some 1 := by
  have h := (reindexing_dense_bijection ["P1", "P2", "P3"] [] (by decide)).1
    1 (by decide)
  exact ⟨by decide, h⟩

/-- Claim C7: an edge endpoint whose identifier is absent from the node table
yields a missing value (`none`) without dropping the row or raising an error;
endpoints present in the table are rewritten normally. -/
theorem unmapped_identifier_silent_missing (ids : List String)
    (edges : List EdgeRow) :
    (reindexEdges ids edges).length = edges.length
    ∧ (∀ (k : Nat) (e : EdgeRow), edges[k]? = some e →
        (reindexEdges ids edges)[k]? =
          some (revIndex ids e.protein1, revIndex ids e.protein2))
    ∧ (∀ x, x ∉ ids → revIndex ids x = none)
    ∧ (∀ x, x ∈ ids → (revIndex ids x).isSome = true) := by
  refine ⟨List.length_map _ _, ?_, fun x hx => revIndex_eq_none hx,
    fun x hx => revIndexFrom_isSome 0 ids hx⟩
  intro k e hk
  unfold reindexEdges
  rw [List.getElem?_map, hk]
  rfl

/-- Witness for C7: the identifier `"ZZ"` is absent and maps to `none`, while
`"P2"` is present; the rewritten table keeps its single row. -/
theorem unmapped_identifier_silent_missing_witness :
    (reindexEdges ["P1", "P2"] [EdgeRow.mk "P2" "ZZ"]).length = 1
    ∧ revIndex ["P1", "P2"] "ZZ" = none
    ∧ (revIndex ["P1", "P2"] "P2").isSome = true
    ∧ (reindexEdges ["P1", "P2"] [EdgeRow.mk "P2" "ZZ"])[0]? =
        some (revIndex ["P1", "P2"] "P2", revIndex ["P1", "P2"] "ZZ") := by
  have h := unmapped_identifier_silent_missing ["P1", "P2"] [EdgeRow.mk "P2" "ZZ"]
  exact ⟨h.1, h.2.2.1 "ZZ" (by decide), h.2.2.2 "P2" (by decide),
    h.2.1 0 (EdgeRow.mk "P2" "ZZ") rfl⟩

/-! ### Lemmas about the dictionary merge -/

theorem find_key_map (d2 : List (String × String)) (k : String) :
    ∀ d1 : List (String × String),
      ((d1.map (fun p => (p.1, (dictLookup d2 p.1).getD p.2))).find?
          (fun q => decide (q.1 = k)))
        = (d1.find? (fun p => decide (p.1 = k))).map
            (fun p => (p.1, (dictLookup d2 p.1).getD p.2)) := by
  intro d1
  induction d1 with
  | nil => rfl
  | cons p rest ih =>
    by_cases hp : p.1 = k
    · simp [List.find?_cons, hp]
    · simp [List.find?_cons, hp, ih]

theorem find_key_filter (d1 : List (String × String)) (k : String)
    (h : dictLookup d1 k = none) :
    ∀ d2 : List (String × String),
      ((d2.filter (fun q => (dictLookup d1 q.1).isNone)).find?
          (fun q => decide (q.1 = k)))
        = d2.find? (fun q => decide (q.1 = k)) := by
  intro d2
  induction d2 with
  | nil => rfl
  | cons q rest ih =>
    by_cases hq : q.1 = k
    · have hkeep : (dictLookup d1 q.1).isNone = true := by
        rw [hq, h]; rfl
      simp [List.filter_cons, hkeep, List.find?_cons, hq, h]
    · by_cases hkeep : (dictLookup d1 q.1).isNone = true
      · simp [List.filter_cons, hkeep, List.find?_cons, hq, ih]
      · simp [List.filter_cons, hkeep, List.find?_cons, hq, ih]

/-! ### Claim theorem for the dictionary merge -/

/-- Claim C8: the merge is right-biased — the merged lookup returns `d2`'s
value when the key is in `d2` and falls back to `d1` otherwise; the merged key
set is the union of both key sets; and merging `{"1":"AA"}` with
`{"1":"BB","2":"CC"}` yields `{"1":"BB","2":"CC"}`. -/
theorem merge_dicts_right_biased (d1 d2 : List (String × String)) (k : String) :
    dictLookup (mergeDicts d1 d2) k
      = Option.or (dictLookup d2 k) (dictLookup d1 k)
    ∧ ((dictLookup (mergeDicts d1 d2) k).isSome ↔
        (dictLookup d1 k).isSome = true ∨ (dictLookup d2 k).isSome = true)
    ∧ mergeDicts [("1", "AA")] [("1", "BB"), ("2", "CC")]
        = [("1", "BB"), ("2", "CC")] := by
  have main : dictLookup (mergeDicts d1 d2) k
      = Option.or (dictLookup d2 k) (dictLookup d1 k) := by
    have hm : mergeDicts d1 d2
        = d1.map (fun p => (p.1, (dictLookup d2 p.1).getD p.2))
          ++ d2.filter (fun p => (dictLookup d1 p.1).isNone) := rfl
    show (List.find? (fun p => decide (p.1 = k)) (mergeDicts d1 d2)).map
        (fun p => p.2) = Option.or (dictLookup d2 k) (dictLookup d1 k)
    rw [hm, List.find?_append, find_key_map d2 k d1]
    cases h1 : List.find? (fun p => decide (p.1 = k)) d1 with
    | some p =>
      have hpk : p.1 = k := by
        have := List.find?_some h1
        simpa using this
      have hd1 : dictLookup d1 k = some p.2 := by
        unfold dictLookup
        rw [h1]
        rfl
      cases h2 : dictLookup d2 k with
      | some v => simp [hpk, hd1, h2, Option.or]
      | none => simp [hpk, hd1, h2, Option.or]
    | none =>
      have hd1 : dictLookup d1 k = none := by
        unfold dictLookup
        rw [h1]
        rfl
      rw [find_key_filter d1 k hd1 d2]
      cases h2 : List.find? (fun q => decide (q.1 = k)) d2 with
      | some q => simp [dictLookup, h1, h2, Option.or]
      | none => simp [dictLookup, h1, h2, Option.or]
  refine ⟨main, ?_, by decide⟩
  rw [main]
  cases dictLookup d2 k with
  | some v => simp [Option.or]
  | none => cases dictLookup d1 k with
    | some w => simp [Option.or]
    | none => simp [Option.or]

end PPIAssembly
